import Mathlib

/-!
Verification of the chouette-iot metrics shipping agent.

This file gives a shallow embedding, in Lean 4, of the parts of the
chouette-iot code base that the verified properties talk about:

* the metric model (`MergedMetric`, `WrappedMetric`, tag stringification,
  the merge operation `__add__`) from `chouette_iot/metrics/_metrics.py`;
* the merger (`merge_metrics`, `_cast_to_merged_metrics`) from
  `chouette_iot/metrics/_merger.py`;
* the Datadog wrapper (`_wrap_histogram`, `_percentile`) from
  `chouette_iot/metrics/wrappers/_datadog_wrapper.py`;
* the storage engines (`cleanup_outdated`, `collect_keys`, `collect_values`,
  `store_records`, `delete_records`) from
  `chouette_iot/storage/engines/_redis_engine.py` and `_sqlite_engine.py`;
* the aggregator step (`_process_metrics`) from
  `chouette_iot/metrics/_aggregator.py`;
* the senders (`_post_to_datadog` of the abstract `Sender` and of
  `MetricsSender`) from `chouette_iot/_sender.py` and
  `chouette_iot/metrics/_sender.py`;
* the scheduler handle (`Cancellable.cancel`, `Cancellable.set_timer`)
  from `chouette/_scheduler.py`.

Numbers (metric values and Unix timestamps, floats in the Python source)
are modelled as rationals; JSON payloads are modelled at the level of the
parsed dictionaries; external I/O failures (Redis errors, HTTP responses)
are modelled as explicit oracle parameters.
-/

namespace Chouette

/-- A tag dictionary, the Python `dict` passed as `tags` to a metric:
an association list of tag names to tag values (insertion ordered). -/
abbrev Tags := List (String × String)

/-- `MergedMetric._stringify_tags`: turns the tag dict into a sorted list of
`"key:value"` strings.  The Python code catches `AttributeError` (raised when
`tags` is `None`) and returns `[]`; the `none` case models that path. -/
def stringify_tags : Option Tags → List String
  | none => []
  | some tags =>
    List.insertionSort (· ≤ ·) (tags.map (fun kv => kv.1 ++ ":" ++ kv.2))

/-- `MergedMetric` from `chouette_iot/metrics/_metrics.py`: name, type,
collected values and timestamps, the tag dict, the stringified sorted tags
`s_tags`, the derived identity `id` and the flush `interval`.
Metric values and timestamps are modelled as rationals. -/
structure MergedMetric where
  metric : String
  type : String
  values : List ℚ
  timestamps : List ℚ
  tags : Option Tags
  s_tags : List String
  id : String
  interval : ℕ
  deriving DecidableEq, Repr, Inhabited

/-- The `MergedMetric.__init__` constructor: computes `s_tags` from the tag
dict and the identity built by joining name, type and `s_tags` with `_`.
The Python default for a missing `interval` kwarg is `10`. -/
def mkMergedMetric (metric type : String) (values timestamps : List ℚ)
    (tags : Option Tags) (interval : ℕ) : MergedMetric :=
  let s := stringify_tags tags
  { metric := metric
    type := type
    values := values
    timestamps := timestamps
    tags := tags
    s_tags := s
    id := metric ++ "_" ++ type ++ String.intercalate "_" s
    interval := interval }

/-- A `MergedMetric` whose derived fields (`s_tags`, `id`) are consistent
with its base fields, i.e. one that was built by the constructor. -/
def MergedMetric.WF (m : MergedMetric) : Prop :=
  m.s_tags = stringify_tags m.tags ∧
  m.id = m.metric ++ "_" ++ m.type ++ String.intercalate "_" m.s_tags

theorem mkMergedMetric_WF (metric type : String) (values timestamps : List ℚ)
    (tags : Option Tags) (interval : ℕ) :
    (mkMergedMetric metric type values timestamps tags interval).WF :=
  ⟨rfl, rfl⟩

/-- The result `MergedMetric.__add__` builds when the identities agree:
`MergedMetric(metric=self.metric, type=self.type, values=self.values +
other.values, timestamps=self.timestamps + other.timestamps,
tags=self.tags)` — note that no `interval` kwarg is passed, so the result
gets the constructor default `10`. -/
def mergeU (a b : MergedMetric) : MergedMetric :=
  mkMergedMetric a.metric a.type (a.values ++ b.values)
    (a.timestamps ++ b.timestamps) a.tags 10

/-- `MergedMetric.__add__`: raises `ValueError` when the identities differ,
otherwise returns the merged metric. -/
def madd (a b : MergedMetric) : Except String MergedMetric :=
  if a.id ≠ b.id then .error "ValueError: cannot merge different metrics"
  else .ok (mergeU a b)

theorem mergeU_WF (a b : MergedMetric) : (mergeU a b).WF :=
  mkMergedMetric_WF _ _ _ _ _ _

theorem mergeU_id (a b : MergedMetric) (ha : a.WF) : (mergeU a b).id = a.id := by
  rcases ha with ⟨hs, hid⟩
  simp [mergeU, mkMergedMetric, hid, hs]

/-- `WrappedMetric` from `chouette_iot/metrics/_metrics.py`: a wire-ready
data point with one `[timestamp, value]` point, a sorted list of tag
strings and an optional interval. -/
structure WrappedMetric where
  metric : String
  type : String
  value : ℚ
  timestamp : ℚ
  tags : List String
  interval : Option ℤ
  deriving DecidableEq, Repr, Inhabited

/-- The `WrappedMetric.__init__` constructor: sorts the provided tag list
(`sorted(tags) if tags else []`). -/
def mkWrappedMetric (metric type : String) (value timestamp : ℚ)
    (tags : List String) (interval : Option ℤ) : WrappedMetric :=
  { metric := metric
    type := type
    value := value
    timestamp := timestamp
    tags := List.insertionSort (· ≤ ·) tags
    interval := interval }

/-- Values appearing in the dictionary produced by `WrappedMetric.asdict`. -/
inductive DVal
  | str (s : String)
  | tagList (ts : List String)
  | points (pts : List (ℚ × ℚ))
  | int (i : ℤ)
  deriving DecidableEq, Repr

/-- `WrappedMetric.asdict`: always emits `metric`, `tags`, `points` and
`type`; the `interval` entry is added only when `self.interval` is truthy,
i.e. present and nonzero (`if self.interval:`). -/
def WrappedMetric.asdict (m : WrappedMetric) : List (String × DVal) :=
  let base := [("metric", DVal.str m.metric),
               ("tags", DVal.tagList m.tags),
               ("points", DVal.points [(m.timestamp, m.value)]),
               ("type", DVal.str m.type)]
  match m.interval with
  | some i => if i = 0 then base else base ++ [("interval", DVal.int i)]
  | none => base

/-- C10: For every WrappedMetric, asdict() always contains the keys metric,
tags, points and type, and contains an interval key if and only if the
metric's interval is set and nonzero; in particular a WrappedMetric
constructed with interval = 0 or interval = None serializes with no
interval entry in its wire payload. -/
theorem asdict_interval_key (m : WrappedMetric) :
    ("metric" ∈ m.asdict.map Prod.fst ∧ "tags" ∈ m.asdict.map Prod.fst ∧
     "points" ∈ m.asdict.map Prod.fst ∧ "type" ∈ m.asdict.map Prod.fst) ∧
    ("interval" ∈ m.asdict.map Prod.fst ↔
      ∃ i : ℤ, m.interval = some i ∧ i ≠ 0) := by
  cases h : m.interval with
  | none => simp [WrappedMetric.asdict, h]
  | some i =>
    by_cases hi : i = 0 <;> simp [WrappedMetric.asdict, h, hi]

/-- C3 counterexample: two MergedMetrics with equal identity and
flush_interval 20 merge into a metric whose interval is the constructor
default 10, not the original 20 — `__add__` does not pass the `interval`
kwarg, so the claim "and the original flush_interval" fails. -/
theorem merged_add_interval_counterexample :
    (madd (mkMergedMetric "m" "count" [1] [2] none 20)
          (mkMergedMetric "m" "count" [3] [4] none 20)).toOption.map
        (fun c => c.interval) = some 10 ∧
    (mkMergedMetric "m" "count" [1] [2] none 20).interval = 20 := by
  constructor <;> rfl

/-- C3 (amended): For any two constructor-built MergedMetrics a and b with
a.id == b.id, the merge a + b yields a MergedMetric with the same identity,
values equal to a.values concatenated with b.values, timestamps equal to
a.timestamps concatenated with b.timestamps, and the constructor default
interval 10 (the original flush_interval is not preserved); for a.id !=
b.id, a + b raises ValueError. -/
theorem merged_add_amended (am aty : String) (av ats : List ℚ)
    (atg : Option Tags) (ai : ℕ) (bm bty : String) (bv bts : List ℚ)
    (btg : Option Tags) (bi : ℕ) :
    (((mkMergedMetric am aty av ats atg ai).id =
        (mkMergedMetric bm bty bv bts btg bi).id →
      madd (mkMergedMetric am aty av ats atg ai)
          (mkMergedMetric bm bty bv bts btg bi) =
        .ok (mkMergedMetric am aty (av ++ bv) (ats ++ bts) atg 10) ∧
      (mkMergedMetric am aty (av ++ bv) (ats ++ bts) atg 10).id =
        (mkMergedMetric am aty av ats atg ai).id)) ∧
    (((mkMergedMetric am aty av ats atg ai).id ≠
        (mkMergedMetric bm bty bv bts btg bi).id →
      ∃ e, madd (mkMergedMetric am aty av ats atg ai)
          (mkMergedMetric bm bty bv bts btg bi) = .error e)) := by
  constructor
  · intro h
    refine ⟨?_, rfl⟩
    simp only [madd, h, ne_eq, not_true_eq_false, if_false]
    rfl
  · intro h
    exact ⟨_, if_pos h⟩

theorem merged_add_amended_witness :
    (mkMergedMetric "m" "count" [1] [2] none 20).id =
      (mkMergedMetric "m" "count" [3] [4] none 20).id ∧
    madd (mkMergedMetric "m" "count" [1] [2] none 20)
        (mkMergedMetric "m" "count" [3] [4] none 20) =
      .ok (mkMergedMetric "m" "count" [1, 3] [2, 4] none 10) :=
  ⟨rfl, ((merged_add_amended "m" "count" [1] [2] none 20
      "m" "count" [3] [4] none 20).1 rfl).1⟩

/-!
### The merger (`chouette_iot/metrics/_merger.py`)

`merge_metrics` parses raw-metric payloads, then groups them with
`itertools.groupby` keyed on `metric.id` and folds each group with the
merge operation.  `itertools.groupby` groups only *consecutive* elements
with an equal key; the input is not sorted by identity first.
-/

/-- A parseable raw-metric JSON payload, at the level of the parsed
dictionary: `{"metric": str, "type": str, "timestamp": number,
"value": number, "tags": {...}?}`.  `tags = none` models both a missing
`tags` key and a null value (`dict_metric.get("tags")`). -/
structure RawPayload where
  metric : String
  type : String
  timestamp : ℚ
  value : ℚ
  tags : Option Tags
  deriving DecidableEq, Repr

/-- One step of `_cast_to_merged_metrics`: a parsed record becomes a
singleton MergedMetric carrying the flush interval. -/
def cast_to_merged_metric (r : RawPayload) (interval : ℕ) : MergedMetric :=
  mkMergedMetric r.metric r.type [r.value] [r.timestamp] r.tags interval

/-- Helper for the `itertools.groupby` model: splits off the longest prefix
whose elements map to the key `k`. -/
def takeRun {α β : Type} [DecidableEq β] (f : α → β) (k : β) :
    List α → List α × List α
  | [] => ([], [])
  | y :: ys =>
    if f y = k then
      let p := takeRun f k ys
      (y :: p.1, p.2)
    else ([], y :: ys)

theorem takeRun_rest_length {α β : Type} [DecidableEq β] (f : α → β) (k : β) :
    ∀ l : List α, (takeRun f k l).2.length ≤ l.length := by
  intro l
  induction l with
  | nil => simp [takeRun]
  | cons y ys ih =>
    by_cases h : f y = k
    · simp only [takeRun, if_pos h]
      exact Nat.le_succ_of_le ih
    · simp [takeRun, if_neg h]

/-- Fuel-driven worker for the `itertools.groupby` model; the fuel only
makes the recursion structural and never runs out when it starts at the
length of the list. -/
def groupRunsF {α β : Type} [DecidableEq β] (f : α → β) :
    ℕ → List α → List (List α)
  | _, [] => []
  | 0, x :: xs => [x :: xs]
  | n + 1, x :: xs =>
    let p := takeRun f (f x) xs
    (x :: p.1) :: groupRunsF f n p.2

/-- The `itertools.groupby` model: partitions a list into maximal runs of
consecutive elements sharing the same key `f`. -/
def groupRuns {α β : Type} [DecidableEq β] (f : α → β) (l : List α) :
    List (List α) :=
  groupRunsF f l.length l

/-- The fuel is irrelevant as soon as it dominates the length. -/
theorem groupRunsF_congr {α β : Type} [DecidableEq β] (f : α → β) :
    ∀ (n m : ℕ) (l : List α), l.length ≤ n → l.length ≤ m →
      groupRunsF f n l = groupRunsF f m l := by
  intro n
  induction n with
  | zero =>
    intro m l hn _
    cases l with
    | nil => cases m <;> rfl
    | cons x xs => simp at hn
  | succ n ih =>
    intro m l hn hm
    cases l with
    | nil => cases m <;> rfl
    | cons x xs =>
      cases m with
      | zero => simp at hm
      | succ m =>
        simp only [groupRunsF]
        have hrest := takeRun_rest_length f (f x) xs
        have hxs : xs.length ≤ n := Nat.le_of_succ_le_succ hn
        have hxs' : xs.length ≤ m := Nat.le_of_succ_le_succ hm
        rw [ih m _ (le_trans hrest hxs) (le_trans hrest hxs')]

/-- Unfolding equation for `groupRuns` on a cons cell. -/
theorem groupRuns_cons {α β : Type} [DecidableEq β] (f : α → β) (x : α)
    (xs : List α) :
    groupRuns f (x :: xs) =
      (x :: (takeRun f (f x) xs).1) :: groupRuns f (takeRun f (f x) xs).2 := by
  show groupRunsF f (xs.length + 1) (x :: xs) = _
  simp only [groupRunsF, groupRuns]
  rw [groupRunsF_congr f xs.length (takeRun f (f x) xs).2.length _
    (takeRun_rest_length f (f x) xs) le_rfl]

/-- `reduce(lambda a, b: a + b, metrics)` over one group: folds the tail
onto the head with `__add__` (which can raise). -/
def reduceAdd : List MergedMetric → Except String MergedMetric
  | [] => .error "TypeError: reduce of empty sequence"
  | h :: t => t.foldlM madd h

/-- `MetricsMerger.merge_metrics` from `chouette_iot/metrics/_merger.py`:
casts the (parseable) records to singleton MergedMetrics, groups them with
`itertools.groupby` on `metric.id`, and reduces every group with the merge
operation.  An exception raised by a reduce propagates (`Except`). -/
def merge_metrics (records : List RawPayload) (interval : ℕ) :
    Except String (List MergedMetric) :=
  let singles := records.map (fun r => cast_to_merged_metric r interval)
  (groupRuns (fun m : MergedMetric => m.id) singles).mapM reduceAdd

/-- C4 counterexample: three parseable payloads with identities A, B, A in
that order.  `merge_metrics` returns three MergedMetrics, two of which
share the identity `"a_count"` — not one MergedMetric per distinct
identity, because `itertools.groupby` merges only adjacent records. -/
theorem merge_metrics_order_counterexample :
    (merge_metrics [⟨"a", "count", 1, 1, none⟩, ⟨"b", "count", 1, 1, none⟩,
        ⟨"a", "count", 2, 2, none⟩] 10).toOption.map
      (fun ms => ms.map (fun m => m.id)) =
      some ["a_count", "b_count", "a_count"] ∧
    "a_count" ≠ "b_count" := by
  constructor
  · rfl
  · decide

theorem takeRun_eq {α β : Type} [DecidableEq β] (f : α → β) (k : β) :
    ∀ l : List α,
      (∀ y ∈ (takeRun f k l).1, f y = k) ∧
      (takeRun f k l).1 ++ (takeRun f k l).2 = l := by
  intro l
  induction l with
  | nil => simp [takeRun]
  | cons y ys ih =>
    by_cases h : f y = k
    · simp only [takeRun, if_pos h]
      refine ⟨?_, ?_⟩
      · intro z hz
        rcases List.mem_cons.mp hz with hz | hz
        · exact hz ▸ h
        · exact ih.1 z hz
      · simpa using ih.2
    · simp [takeRun, if_neg h]

/-- Joint shape lemma for the `itertools.groupby` model: the groups
concatenate back to the list, and every group is a nonempty run of
elements sharing the key of its head. -/
theorem groupRunsF_spec {α β : Type} [DecidableEq β] (f : α → β) :
    ∀ (n : ℕ) (l : List α), l.length ≤ n →
      (groupRunsF f n l).flatten = l ∧
      ∀ g ∈ groupRunsF f n l, ∃ x r, g = x :: r ∧ ∀ y ∈ r, f y = f x := by
  intro n
  induction n with
  | zero =>
    intro l hl
    cases l with
    | nil => simp [groupRunsF]
    | cons x xs => simp at hl
  | succ n ih =>
    intro l hl
    cases l with
    | nil => simp [groupRunsF]
    | cons x xs =>
      have hxs : xs.length ≤ n := Nat.le_of_succ_le_succ hl
      have hrest : (takeRun f (f x) xs).2.length ≤ n :=
        le_trans (takeRun_rest_length f (f x) xs) hxs
      obtain ⟨ihjoin, ihmem⟩ := ih (takeRun f (f x) xs).2 hrest
      constructor
      · simp only [groupRunsF, List.flatten_cons, ihjoin, List.cons_append]
        rw [(takeRun_eq f (f x) xs).2]
      · intro g hg
        simp only [groupRunsF, List.mem_cons] at hg
        rcases hg with hg | hg
        · exact ⟨x, (takeRun f (f x) xs).1, hg, (takeRun_eq f (f x) xs).1⟩
        · exact ihmem g hg

theorem groupRuns_join {α β : Type} [DecidableEq β] (f : α → β) (l : List α) :
    (groupRuns f l).flatten = l :=
  (groupRunsF_spec f l.length l le_rfl).1

theorem groupRuns_shape {α β : Type} [DecidableEq β] (f : α → β) (l : List α) :
    ∀ g ∈ groupRuns f l, ∃ x r, g = x :: r ∧ ∀ y ∈ r, f y = f x :=
  (groupRunsF_spec f l.length l le_rfl).2

/-- The key of any element of a uniform block list is the key of the head
of its block. -/
theorem mem_join_key {α β : Type} [DecidableEq β] (f : α → β) (dα : α)
    (blocks : List (List α))
    (hb : ∀ b ∈ blocks, ∃ x r, b = x :: r ∧ ∀ y ∈ r, f y = f x) :
    ∀ y ∈ blocks.flatten, f y ∈ blocks.map (fun b => f (b.headD dα)) := by
  intro y hy
  rcases List.mem_flatten.mp hy with ⟨b, hbmem, hyb⟩
  obtain ⟨x, r, rfl, hr⟩ := hb b hbmem
  have : f y = f x := by
    rcases List.mem_cons.mp hyb with h | h
    · exact h ▸ rfl
    · exact hr y h
  rw [this]
  exact List.mem_map.mpr ⟨x :: r, hbmem, rfl⟩

theorem dedup_const_append {β : Type} [DecidableEq β] (k : β) :
    ∀ (s t : List β), s ≠ [] → (∀ a ∈ s, a = k) → k ∉ t →
      (s ++ t).dedup = k :: t.dedup := by
  intro s
  induction s with
  | nil => intro t h; simp at h
  | cons a s ih =>
    intro t _ hconst hkt
    have ha : a = k := hconst a (List.mem_cons_self _ _)
    cases s with
    | nil =>
      simp only [List.cons_append, List.nil_append, ha]
      exact List.dedup_cons_of_not_mem hkt
    | cons a' s' =>
      have ha' : a' = k := hconst a' (List.mem_cons_of_mem _ (List.mem_cons_self _ _))
      have hk : a ∈ (a' :: s') ++ t := by
        apply List.mem_append_left
        rw [ha, ← ha']
        exact List.mem_cons_self _ _
      rw [List.cons_append, List.dedup_cons_of_mem hk]
      exact ih t (by simp) (fun b hb => hconst b (List.mem_cons_of_mem _ hb)) hkt

/-- Deduplicating the keys of a uniform block list with pairwise-distinct
block keys yields exactly the block keys in order. -/
theorem dedup_join_keys {α β : Type} [DecidableEq β] (f : α → β) (dα : α) :
    ∀ blocks : List (List α),
      (∀ b ∈ blocks, ∃ x r, b = x :: r ∧ ∀ y ∈ r, f y = f x) →
      (blocks.map (fun b => f (b.headD dα))).Nodup →
      (blocks.flatten.map f).dedup = blocks.map (fun b => f (b.headD dα)) := by
  intro blocks
  induction blocks with
  | nil => simp
  | cons b rest ih =>
    intro hb hnd
    obtain ⟨x, r, rfl, hr⟩ := hb b (List.mem_cons_self _ _)
    have hrest : ∀ b ∈ rest, ∃ x r, b = x :: r ∧ ∀ y ∈ r, f y = f x :=
      fun b hbm => hb b (List.mem_cons_of_mem _ hbm)
    have hndrest : (rest.map (fun b => f (b.headD dα))).Nodup :=
      (List.nodup_cons.mp hnd).2
    have hknotin : f x ∉ rest.flatten.map f := by
      intro hmem
      rcases List.mem_map.mp hmem with ⟨y, hy, hfy⟩
      have := mem_join_key f dα rest hrest y hy
      rw [hfy] at this
      exact (List.nodup_cons.mp hnd).1 this
    rw [List.flatten_cons, List.map_append]
    rw [dedup_const_append (f x) ((x :: r).map f) (rest.flatten.map f)
      (by simp) ?hconst hknotin]
    · rw [ih hrest hndrest]
      simp
    case hconst =>
      intro a ha
      rcases List.mem_map.mp ha with ⟨y, hy, hfy⟩
      rcases List.mem_cons.mp hy with h | h
      · rw [← hfy, h]
      · rw [← hfy]; exact hr y h

/-- Filtering a uniform block list with pairwise-distinct block keys on
one block key recovers exactly that block. -/
theorem filter_join_block {α β : Type} [DecidableEq β] (f : α → β) (dα : α) :
    ∀ blocks : List (List α),
      (∀ b ∈ blocks, ∃ x r, b = x :: r ∧ ∀ y ∈ r, f y = f x) →
      (blocks.map (fun b => f (b.headD dα))).Nodup →
      ∀ g ∈ blocks,
        blocks.flatten.filter (fun y => f y = f (g.headD dα)) = g := by
  intro blocks
  induction blocks with
  | nil => simp
  | cons b rest ih =>
    intro hb hnd g hg
    obtain ⟨x, r, rfl, hr⟩ := hb b (List.mem_cons_self _ _)
    have hrest : ∀ b ∈ rest, ∃ x r, b = x :: r ∧ ∀ y ∈ r, f y = f x :=
      fun b hbm => hb b (List.mem_cons_of_mem _ hbm)
    have hndrest : (rest.map (fun b => f (b.headD dα))).Nodup :=
      (List.nodup_cons.mp hnd).2
    have hkeyrest : ∀ y ∈ rest.flatten, f y ≠ f x := by
      intro y hy hcontra
      have := mem_join_key f dα rest hrest y hy
      rw [hcontra] at this
      exact (List.nodup_cons.mp hnd).1 this
    rcases List.mem_cons.mp hg with rfl | hg
    · simp only [List.headD_cons, List.flatten_cons, List.filter_append]
      have h1 : (x :: r).filter (fun y => f y = f x) = x :: r := by
        apply List.filter_eq_self.mpr
        intro y hy
        rcases List.mem_cons.mp hy with rfl | hy
        · simp
        · simp [hr y hy]
      have h2 : rest.flatten.filter (fun y => f y = f x) = [] := by
        apply List.filter_eq_nil_iff.mpr
        intro y hy
        simp [hkeyrest y hy]
      rw [h1, h2, List.append_nil]
    · obtain ⟨xg, rg, rfl, hrg⟩ := hrest g hg
      have hkg : f (( xg :: rg).headD dα) ∈ rest.map (fun b => f (b.headD dα)) :=
        List.mem_map.mpr ⟨xg :: rg, hg, rfl⟩
      have hkgne : f xg ≠ f x := by
        simp only [List.headD_cons] at hkg
        intro hcontra
        rw [hcontra] at hkg
        exact (List.nodup_cons.mp hnd).1 hkg
      simp only [List.headD_cons, List.flatten_cons, List.filter_append]
      have h1 : (x :: r).filter (fun y => f y = f xg) = [] := by
        apply List.filter_eq_nil_iff.mpr
        intro y hy
        have hyx : f y = f x := by
          rcases List.mem_cons.mp hy with rfl | hy
          · rfl
          · exact hr y hy
        simp only [decide_eq_true_eq, hyx]
        exact fun h => hkgne h.symm
      rw [h1, List.nil_append]
      have := ih hrest hndrest (xg :: rg) hg
      simpa using this

/-- Total counterpart of `reduce(lambda a, b: a + b, group)` for the
nonempty uniform groups produced by `itertools.groupby`: within such a
group `__add__` never raises, so the fold is the unchecked merge. -/
def reduceRun : List MergedMetric → MergedMetric
  | [] => default
  | h :: t => t.foldl mergeU h

theorem foldl_mergeU_id_WF :
    ∀ (t : List MergedMetric) (h : MergedMetric), h.WF →
      (t.foldl mergeU h).id = h.id ∧ (t.foldl mergeU h).WF := by
  intro t
  induction t with
  | nil => intro h hWF; exact ⟨rfl, hWF⟩
  | cons y t ih =>
    intro h hWF
    have hmWF := mergeU_WF h y
    obtain ⟨hid, hWF2⟩ := ih (mergeU h y) hmWF
    exact ⟨by rw [List.foldl_cons, hid, mergeU_id h y hWF], by
      rw [List.foldl_cons]; exact hWF2⟩

theorem foldlM_madd_eq :
    ∀ (t : List MergedMetric) (h : MergedMetric), h.WF →
      (∀ y ∈ t, y.id = h.id) → t.foldlM madd h = .ok (t.foldl mergeU h) := by
  intro t
  induction t with
  | nil => intro h _ _; rfl
  | cons y t ih =>
    intro h hWF hids
    have hy : y.id = h.id := hids y (List.mem_cons_self _ _)
    have hstep : madd h y = .ok (mergeU h y) := by
      simp [madd, hy.symm]
    have hrec := ih (mergeU h y) (mergeU_WF h y) (fun z hz => by
      rw [hids z (List.mem_cons_of_mem _ hz), ← mergeU_id h y hWF])
    simp only [List.foldlM_cons, hstep, List.foldl_cons]
    simpa using hrec

theorem mapM_reduceAdd (gs : List (List MergedMetric))
    (hg : ∀ g ∈ gs, ∃ x r, g = x :: r ∧ x.WF ∧ ∀ y ∈ r, y.id = x.id) :
    gs.mapM reduceAdd = .ok (gs.map reduceRun) := by
  induction gs with
  | nil => rfl
  | cons g rest ih =>
    obtain ⟨x, r, rfl, hWF, hr⟩ := hg g (List.mem_cons_self _ _)
    have h1 : reduceAdd (x :: r) = .ok (reduceRun (x :: r)) :=
      foldlM_madd_eq r x hWF hr
    have h2 := ih (fun g hgm => hg g (List.mem_cons_of_mem _ hgm))
    simp only [List.mapM_cons, h1, h2, List.map_cons]
    rfl

/-- Every group delivered by `groupby` over constructor-built metrics is a
nonempty run of well-formed metrics sharing the identity of its head. -/
theorem groupRuns_group_spec (records : List RawPayload) (interval : ℕ) :
    ∀ g ∈ groupRuns (fun m : MergedMetric => m.id)
        (records.map (fun r => cast_to_merged_metric r interval)),
      ∃ x r, g = x :: r ∧ x.WF ∧ ∀ y ∈ r, y.id = x.id := by
  intro g hgm
  set l := records.map (fun r => cast_to_merged_metric r interval) with hl
  obtain ⟨x, r, rfl, hr⟩ :=
    groupRuns_shape (fun m : MergedMetric => m.id) l g hgm
  refine ⟨x, r, rfl, ?_, hr⟩
  have hxl : x ∈ l := by
    rw [← groupRuns_join (fun m : MergedMetric => m.id) l]
    exact List.mem_flatten.mpr ⟨x :: r, hgm, List.mem_cons_self _ _⟩
  rcases List.mem_map.mp hxl with ⟨rec, _, hrec⟩
  rw [← hrec]
  exact mkMergedMetric_WF _ _ _ _ _ _

/-- `merge_metrics` always succeeds on parseable payloads and returns the
fold of every maximal run of consecutive same-identity records. -/
theorem merge_metrics_eq (records : List RawPayload) (interval : ℕ) :
    merge_metrics records interval =
      .ok ((groupRuns (fun m : MergedMetric => m.id)
        (records.map (fun r => cast_to_merged_metric r interval))).map
          reduceRun) :=
  mapM_reduceAdd _ (groupRuns_group_spec records interval)

/-- C4 (amended): merge_metrics groups only *consecutive* records sharing
an identity (itertools.groupby on an unsorted list).  For every list of
parseable raw-metric payloads in which all records of one MergedMetric
identity are adjacent — equivalently, the identities of the maximal runs
are pairwise distinct — merge_metrics returns exactly one MergedMetric per
distinct identity occurring in the list, obtained by folding all records
of that identity with the merge operation.  For other orders it returns
one MergedMetric per maximal run instead. -/
theorem merge_metrics_adjacent_amended (records : List RawPayload)
    (interval : ℕ)
    (hadj : ((groupRuns (fun m : MergedMetric => m.id)
        (records.map (fun r => cast_to_merged_metric r interval))).map
        (fun g => (g.headD default).id)).Nodup) :
    ∃ ms, merge_metrics records interval = .ok ms ∧
      ms.map (fun m => m.id) =
        ((records.map (fun r => cast_to_merged_metric r interval)).map
          (fun m => m.id)).dedup ∧
      ∀ m ∈ ms,
        m = reduceRun
          ((records.map (fun r => cast_to_merged_metric r interval)).filter
            (fun y => y.id = m.id)) := by
  set l := records.map (fun r => cast_to_merged_metric r interval) with hldef
  set idf := fun m : MergedMetric => m.id with hidf
  have hshape := groupRuns_shape idf l
  have hspec := groupRuns_group_spec records interval
  rw [← hldef] at hspec
  have hkey : ∀ g ∈ groupRuns idf l,
      (reduceRun g).id = (g.headD default).id := by
    intro g hgm
    obtain ⟨x, r, rfl, hWF, _⟩ := hspec g hgm
    simp only [reduceRun, List.headD_cons]
    exact (foldl_mergeU_id_WF r x hWF).1
  refine ⟨(groupRuns idf l).map reduceRun, merge_metrics_eq records interval,
    ?_, ?_⟩
  · have hded := dedup_join_keys idf default (groupRuns idf l) hshape hadj
    rw [groupRuns_join idf l] at hded
    rw [hded, List.map_map]
    exact List.map_congr_left (fun g hgm => hkey g hgm)
  · intro m hm
    rcases List.mem_map.mp hm with ⟨g, hgm, rfl⟩
    have hfil := filter_join_block idf default (groupRuns idf l) hshape hadj
      g hgm
    rw [groupRuns_join idf l] at hfil
    rw [hkey g hgm]
    exact (congrArg reduceRun hfil).symm

theorem merge_metrics_adjacent_witness :
    ∃ ms,
      merge_metrics [⟨"a", "count", 1, 1, none⟩, ⟨"a", "count", 2, 2, none⟩,
          ⟨"b", "count", 1, 3, none⟩] 10 = .ok ms ∧
      ms.map (fun m => m.id) =
        ((([⟨"a", "count", 1, 1, none⟩, ⟨"a", "count", 2, 2, none⟩,
            ⟨"b", "count", 1, 3, none⟩] : List RawPayload).map
          (fun r => cast_to_merged_metric r 10)).map (fun m => m.id)).dedup ∧
      ∀ m ∈ ms,
        m = reduceRun
          ((([⟨"a", "count", 1, 1, none⟩, ⟨"a", "count", 2, 2, none⟩,
              ⟨"b", "count", 1, 3, none⟩] : List RawPayload).map
            (fun r => cast_to_merged_metric r 10)).filter
              (fun y => y.id = m.id)) :=
  merge_metrics_adjacent_amended
    [⟨"a", "count", 1, 1, none⟩, ⟨"a", "count", 2, 2, none⟩,
     ⟨"b", "count", 1, 3, none⟩] 10 (by decide)

/-!
### The Datadog wrapper (`chouette_iot/metrics/wrappers/_datadog_wrapper.py`)
-/

/-- Python `sum(values)`. -/
def listSum (l : List ℚ) : ℚ := l.foldl (· + ·) 0

/-- Python `min(values)` for the nonempty lists the wrapper is applied to;
`0` stands in for the `ValueError` raised on an empty list. -/
def listMin : List ℚ → ℚ
  | [] => 0
  | h :: t => t.foldl min h

/-- Python `max(values)`, same convention as `listMin`. -/
def listMax : List ℚ → ℚ
  | [] => 0
  | h :: t => t.foldl max h

/-- `DatadogWrapper._percentile`: sorts the data, computes
`idx = (len(sorted_ds) - 1) * percent`; if `idx` is integral returns
`sorted_ds[int(idx)]`, otherwise linearly interpolates between the two
neighbouring sorted values.  Indexing is modelled with `getD _ 0`
(out-of-range indices, which Python would answer with `IndexError` or
negative-index wraparound, only arise outside `0 ≤ percent ≤ 1` or for
empty data). -/
def percentile (data_set : List ℚ) (percent : ℚ) : ℚ :=
  let sorted_ds := List.insertionSort (· ≤ ·) data_set
  let idx : ℚ := ((sorted_ds.length : ℚ) - 1) * percent
  if idx.den = 1 then sorted_ds.getD idx.num.toNat 0
  else
    let upper_idx := ⌈idx⌉
    let lower_idx := ⌊idx⌋
    let right_value := sorted_ds.getD upper_idx.toNat 0 * (idx - (lower_idx : ℚ))
    let left_value := sorted_ds.getD lower_idx.toNat 0 * ((upper_idx : ℚ) - idx)
    left_value + right_value

/-- A rational is an integer iff its denominator is one. -/
theorem rat_den_one_iff_floor (q : ℚ) : q.den = 1 ↔ q = (⌊q⌋ : ℚ) := by
  constructor
  · intro h
    have hnum : (q.num : ℚ) = q := (Rat.den_eq_one_iff q).mp h
    rw [← hnum, Int.floor_intCast]
  · intro h
    rw [h]
    exact Rat.den_intCast ⌊q⌋

theorem rat_floor_eq_num_of_den_one (q : ℚ) (h : q.den = 1) : ⌊q⌋ = q.num := by
  have hnum : (q.num : ℚ) = q := (Rat.den_eq_one_iff q).mp h
  conv_lhs => rw [← hnum]
  exact Int.floor_intCast q.num

/-- C9: For every non-empty list of numbers whose sorted form is s of
length n and every p in [0,1], the percentile function returns s[i] when
i = (n−1)·p is an integer, and otherwise returns
s[⌊i⌋]·(⌈i⌉−i) + s[⌈i⌉]·(i−⌊i⌋). -/
theorem percentile_spec (data s : List ℚ) (p : ℚ)
    (hne : data ≠ []) (hs : s.Sorted (· ≤ ·)) (hperm : s.Perm data)
    (h0 : 0 ≤ p) (h1 : p ≤ 1) :
    percentile data p =
      if ((s.length : ℚ) - 1) * p = ((⌊((s.length : ℚ) - 1) * p⌋ : ℤ) : ℚ) then
        s.getD (⌊((s.length : ℚ) - 1) * p⌋).toNat 0
      else
        s.getD (⌊((s.length : ℚ) - 1) * p⌋).toNat 0 *
          ((⌈((s.length : ℚ) - 1) * p⌉ : ℚ) - ((s.length : ℚ) - 1) * p) +
        s.getD (⌈((s.length : ℚ) - 1) * p⌉).toNat 0 *
          (((s.length : ℚ) - 1) * p - ((⌊((s.length : ℚ) - 1) * p⌋ : ℤ) : ℚ)) := by
  have hsorted : List.insertionSort (· ≤ ·) data = s := by
    refine List.eq_of_perm_of_sorted ?_ (List.sorted_insertionSort _ data) hs
    exact (List.perm_insertionSort _ data).trans hperm.symm
  simp only [percentile, hsorted]
  by_cases hden : (((s.length : ℚ) - 1) * p).den = 1
  · have hint : ((s.length : ℚ) - 1) * p =
        ((⌊((s.length : ℚ) - 1) * p⌋ : ℤ) : ℚ) :=
      (rat_den_one_iff_floor _).mp hden
    rw [if_pos hden, if_pos hint,
      rat_floor_eq_num_of_den_one _ hden]
  · have hint : ¬ ((s.length : ℚ) - 1) * p =
        ((⌊((s.length : ℚ) - 1) * p⌋ : ℤ) : ℚ) :=
      fun h => hden ((rat_den_one_iff_floor _).mpr h)
    rw [if_neg hden, if_neg hint]

theorem percentile_spec_witness :
    ([3, 1, 2] : List ℚ) ≠ [] ∧ percentile [3, 1, 2] (1 / 2) = 2 := by
  have h := percentile_spec [3, 1, 2] [1, 2, 3] (1 / 2) (by decide)
    (by norm_num) (by decide) (by norm_num) (by norm_num)
  refine ⟨by decide, ?_⟩
  rw [h]
  norm_num

/-- Python string membership `needle in hay`, prefix test worker. -/
def charPre : List Char → List Char → Bool
  | [], _ => true
  | _ :: _, [] => false
  | a :: as, b :: bs => a == b && charPre as bs

/-- Python string membership `needle in hay`, scanning worker. -/
def charSub (needle : List Char) : List Char → Bool
  | [] => needle.isEmpty
  | b :: bs => charPre needle (b :: bs) || charSub needle bs

/-- Python `needle in hay` on strings. -/
def strContainsSub (hay needle : String) : Bool :=
  charSub needle.data hay.data

/-- Python `str.split(sep)` for a single-character separator. -/
def splitOnChar (c : Char) : List Char → List (List Char)
  | [] => [[]]
  | h :: t =>
    match splitOnChar c t with
    | [] => [[]]
    | g :: gs => if h = c then [] :: g :: gs else (h :: g) :: gs

/-- Python `metric_name.split(".")[-1]`. -/
def lastComponent (s : String) : String :=
  ⟨(splitOnChar '.' s.data).getLastD []⟩

/-- Default `DatadogWrapperConfig.histogram_aggregates`. -/
def histogram_aggregates : List String := ["max", "median", "avg", "count"]

/-- Default `DatadogWrapperConfig.histogram_percentiles`. -/
def histogram_percentiles : List ℚ := [95 / 100]

/-- `DatadogWrapper._wrap_histogram`: builds the candidate metrics
(`avg`, `count`, `sum`, `min`, `max`, `median` and one per configured
percentile), keeps those whose name contains `percentile` or whose last
dot-component is a configured aggregate, and wraps each at
`min(timestamps)`.  The Python code passes the *tag dict* (not `s_tags`)
to `WrappedMetric`, whose constructor applies `sorted(...)`; `sorted`
over a dict iterates its keys, so the resulting tags are the sorted tag
keys — that is modelled by `d.map Prod.fst` fed to the sorting
constructor. -/
def wrap_histogram (aggregates : List String) (percentiles : List ℚ)
    (merged_metric : MergedMetric) : List WrappedMetric :=
  let interval : ℚ := (merged_metric.interval : ℚ)
  let timestamp := listMin merged_metric.timestamps
  let tags : List String :=
    match merged_metric.tags with
    | none => []
    | some d => d.map Prod.fst
  let values := merged_metric.values
  let name := merged_metric.metric
  let metrics_count : ℚ := (values.length : ℚ)
  let toGenerate : List (String × String × ℚ × Option ℤ) :=
    [(name ++ ".avg", "gauge", listSum values / metrics_count, none),
     (name ++ ".count", "rate", metrics_count / interval,
       some (merged_metric.interval : ℤ)),
     (name ++ ".sum", "gauge", listSum values, none),
     (name ++ ".min", "gauge", listMin values, none),
     (name ++ ".max", "gauge", listMax values, none),
     (name ++ ".median", "gauge", percentile values (1 / 2), none)] ++
    percentiles.map (fun p =>
      (name ++ "." ++ toString ⌊p * 100⌋ ++ "percentile", "gauge",
        percentile values p, (none : Option ℤ)))
  (toGenerate.filter (fun t =>
      strContainsSub t.1 "percentile" ||
      aggregates.contains (lastComponent t.1))).map
    (fun t => mkWrappedMetric t.1 t.2.1 t.2.2.1 timestamp tags t.2.2.2)

unseal Rat.inv Rat.mul Rat.add Rat.sub in
/-- C8: under the default configuration the histogram wrapper emits exactly
the five metrics `.avg` (gauge, mean), `.count` (rate, len/interval with
interval attached), `.max` (gauge), `.median` (gauge) and `.95percentile`
(gauge), all at `min(timestamps)` — but their tags are the sorted *keys*
of the tag dict (here `["type"]`), not the merged metric's canonical
`"key:value"` tags `["type:histogram"]`: the wrapper passes the dict where
`WrappedMetric` expects the stringified tag list. -/
theorem wrap_histogram_divergence :
    wrap_histogram histogram_aggregates histogram_percentiles
        (mkMergedMetric "histogram.test" "histogram" [1, 1, 1, 2, 2, 2, 3, 3]
          [10, 11, 12, 15, 13, 14, 19, 17] (some [("type", "histogram")]) 10) =
      [mkWrappedMetric "histogram.test.avg" "gauge" (15 / 8) 10 ["type"] none,
       mkWrappedMetric "histogram.test.count" "rate" (4 / 5) 10 ["type"]
         (some 10),
       mkWrappedMetric "histogram.test.max" "gauge" 3 10 ["type"] none,
       mkWrappedMetric "histogram.test.median" "gauge" 2 10 ["type"] none,
       mkWrappedMetric "histogram.test.95percentile" "gauge" 3 10 ["type"]
         none] ∧
    (mkMergedMetric "histogram.test" "histogram" [1, 1, 1, 2, 2, 2, 3, 3]
      [10, 11, 12, 15, 13, 14, 19, 17] (some [("type", "histogram")])
      10).s_tags = ["type:histogram"] ∧
    (∀ w ∈ wrap_histogram histogram_aggregates histogram_percentiles
        (mkMergedMetric "histogram.test" "histogram" [1, 1, 1, 2, 2, 2, 3, 3]
          [10, 11, 12, 15, 13, 14, 19, 17] (some [("type", "histogram")]) 10),
      w.tags = ["type"]) ∧
    (["type"] : List String) ≠ ["type:histogram"] := by
  refine ⟨?_, ?_, ?_, ?_⟩ <;> decide

/-!
### The storage engines (`chouette_iot/storage/engines/`)

A queue `chouette:{data_type}:{kind}` is a Redis sorted set of
`(uid, timestamp)` entries plus a hash from uid to payload; the SQLite
backend keeps the same `(key, timestamp, content)` data in one table.
-/

/-- One logical queue: the `.keys` sorted-set entries (uid, score) and the
`.values` hash entries (uid, payload). -/
structure Queue (α : Type) where
  keysSet : List (String × ℚ)
  valuesHash : List (String × α)
  deriving DecidableEq, Repr

/-- Redis sorted-set order: ascending score, ties broken by member. -/
def entryLe (a b : String × ℚ) : Prop :=
  a.2 < b.2 ∨ (a.2 = b.2 ∧ a.1 ≤ b.1)

instance : DecidableRel entryLe := fun a b =>
  inferInstanceAs (Decidable (_ ∨ _))

/-- SQLite `ORDER BY timestamp` order. -/
def tsLe (a b : String × ℚ) : Prop := a.2 ≤ b.2

instance : DecidableRel tsLe := fun a b =>
  inferInstanceAs (Decidable (_ ≤ _))

/-- Redis `ZRANGEBYSCORE set lo hi` (both bounds inclusive). -/
def zrangebyscore {α : Type} (q : Queue α) (lo hi : ℚ) :
    List (String × ℚ) :=
  List.insertionSort entryLe (q.keysSet.filter (fun e => lo ≤ e.2 ∧ e.2 ≤ hi))

/-- `RedisEngine.cleanup_outdated`: collects the uids with
`zrangebyscore(set_name, 0, now - ttl)`; when none, returns immediately;
otherwise removes that score range from the sorted set
(`zremrangebyscore(set_name, 0, threshold)`) and those uids from the hash
(`hdel`) in one pipeline. -/
def cleanup_outdated_redis {α : Type} (q : Queue α) (now ttl : ℚ) :
    Queue α :=
  let threshold := now - ttl
  let outdated := (zrangebyscore q 0 threshold).map Prod.fst
  if outdated.isEmpty then q
  else
    { keysSet := q.keysSet.filter (fun e => ¬ (0 ≤ e.2 ∧ e.2 ≤ threshold))
      valuesHash := q.valuesHash.filter (fun e => ¬ e.1 ∈ outdated) }

/-- `RedisEngine.collect_keys`: `zrange(set_name, 0, amount - 1,
withscores=True)`.  With `amount = 0` the Redis stop index is `-1`, i.e.
the whole set; with `amount = n > 0` the `n` smallest entries. -/
def collect_keys_redis {α : Type} (q : Queue α) (amount : ℕ) :
    List (String × ℚ) :=
  let s := List.insertionSort entryLe q.keysSet
  if amount = 0 then s else s.take amount

/-- `SQLiteEngine.collect_keys`: `SELECT key, timestamp FROM t ORDER BY
timestamp LIMIT ?` — `LIMIT 0` selects no rows.  (On top of that the
Python code binds the parameter as `str(request.amount)`, a character
sequence, so any amount of two or more digits raises a binding error that
is caught and answered with `[]`; the `LIMIT` semantics alone already
decide the claim.) -/
def collect_keys_sqlite {α : Type} (q : Queue α) (amount : ℕ) :
    List (String × ℚ) :=
  (List.insertionSort tsLe q.keysSet).take amount

/-- `RedisEngine.collect_values`: `hmget` of the requested keys in order,
dropping missing values (`[value for value in raw_values if value]`). -/
def collect_values {α : Type} (q : Queue α) (keys : List String) : List α :=
  if keys.isEmpty then []
  else (keys.map (fun k => q.valuesHash.lookup k)).filterMap id

/-- `RedisEngine.delete_records`: no-op success on an empty key list,
otherwise one pipeline removing the keys from the sorted set and the
hash. -/
def delete_records {α : Type} (q : Queue α) (keys : List String) :
    Bool × Queue α :=
  if keys.isEmpty then (true, q)
  else (true,
    { keysSet := q.keysSet.filter (fun e => ¬ e.1 ∈ keys)
      valuesHash := q.valuesHash.filter (fun e => ¬ e.1 ∈ keys) })

/-- `RedisEngine.store_records`: an empty record list succeeds without
touching the store; otherwise a fresh uid is generated per record and the
`(uid, timestamp)` and `(uid, payload)` entries are written in one
pipeline, which either commits entirely or fails entirely (`RedisError`,
modelled by the `storeFails` oracle). -/
def store_records {α : Type} (q : Queue α) (records : List (ℚ × α))
    (storeFails : Bool) (uidBase : ℕ) : Bool × Queue α :=
  if records.isEmpty then (true, q)
  else if storeFails then (false, q)
  else
    let keyed := (List.range records.length).zip records
    (true,
      { keysSet := q.keysSet ++
          keyed.map (fun p => ("uid-" ++ toString (uidBase + p.1), p.2.1))
        valuesHash := q.valuesHash ++
          keyed.map (fun p => ("uid-" ++ toString (uidBase + p.1), p.2.2)) })

unseal Rat.inv Rat.mul Rat.add Rat.sub in
/-- C5 counterexample: a record with the negative timestamp −5 survives
`cleanup_outdated` with `now = 100`, `ttl = 10`, although
−5 < now − ttl = 90: the Redis engine collects the outdated range with
`zrangebyscore(set, 0, threshold)`, whose lower bound 0 excludes every
negative score, so the claim's "for any timestamp value, including
timestamps below zero" fails. -/
theorem cleanup_negative_ts_counterexample :
    cleanup_outdated_redis
        (⟨[("k", -5)], [("k", "payload")]⟩ : Queue String) 100 10 =
      ⟨[("k", -5)], [("k", "payload")]⟩ ∧
    (-5 : ℚ) < 100 - 10 := by
  constructor
  · rfl
  · decide

/-- C5 (amended): after a successful `CleanupOutdatedRecords` on the Redis
engine, exactly the records with timestamp in the closed interval
[0, now − ttl] are gone, from the key index and the payload hash together;
every other record — the newer ones and also any record with a negative
timestamp — remains. -/
theorem cleanup_outdated_amended {α : Type} [DecidableEq α]
    (q : Queue α) (now ttl : ℚ) :
    (∀ u t, (u, t) ∈ (cleanup_outdated_redis q now ttl).keysSet ↔
      ((u, t) ∈ q.keysSet ∧ ¬ (0 ≤ t ∧ t ≤ now - ttl))) ∧
    (∀ u v, (u, v) ∈ (cleanup_outdated_redis q now ttl).valuesHash ↔
      ((u, v) ∈ q.valuesHash ∧
        ∀ t, (u, t) ∈ q.keysSet → ¬ (0 ≤ t ∧ t ≤ now - ttl))) := by
  have hmemrange : ∀ u : String,
      u ∈ (zrangebyscore q 0 (now - ttl)).map Prod.fst ↔
        ∃ t, (u, t) ∈ q.keysSet ∧ 0 ≤ t ∧ t ≤ now - ttl := by
    intro u
    constructor
    · intro hu
      rcases List.mem_map.mp hu with ⟨e, he, rfl⟩
      have he2 := (List.perm_insertionSort entryLe _).mem_iff.mp he
      rcases List.mem_filter.mp he2 with ⟨hmem, hrange⟩
      exact ⟨e.2, hmem, of_decide_eq_true hrange⟩
    · rintro ⟨t, hmem, hrange⟩
      refine List.mem_map.mpr ⟨(u, t), ?_, rfl⟩
      refine (List.perm_insertionSort entryLe _).mem_iff.mpr ?_
      exact List.mem_filter.mpr ⟨hmem, decide_eq_true hrange⟩
  by_cases hempty : ((zrangebyscore q 0 (now - ttl)).map Prod.fst).isEmpty
  · have hnil : (zrangebyscore q 0 (now - ttl)).map Prod.fst = [] :=
      List.isEmpty_iff.mp hempty
    have hnone : ∀ u t, (u, t) ∈ q.keysSet → ¬ (0 ≤ t ∧ t ≤ now - ttl) := by
      intro u t hmem hrange
      have : u ∈ (zrangebyscore q 0 (now - ttl)).map Prod.fst :=
        (hmemrange u).mpr ⟨t, hmem, hrange⟩
      rw [hnil] at this
      exact (List.not_mem_nil u) this
    have hq : cleanup_outdated_redis q now ttl = q := by
      unfold cleanup_outdated_redis
      rw [if_pos hempty]
    rw [hq]
    constructor
    · intro u t
      exact ⟨fun h => ⟨h, hnone u t h⟩, fun h => h.1⟩
    · intro u v
      exact ⟨fun h => ⟨h, fun t ht => hnone u t ht⟩, fun h => h.1⟩
  · have hq : cleanup_outdated_redis q now ttl =
        { keysSet := q.keysSet.filter
            (fun e => ¬ (0 ≤ e.2 ∧ e.2 ≤ now - ttl))
          valuesHash := q.valuesHash.filter
            (fun e => ¬ e.1 ∈ (zrangebyscore q 0 (now - ttl)).map Prod.fst) } := by
      unfold cleanup_outdated_redis
      rw [if_neg hempty]
    rw [hq]
    constructor
    · intro u t
      constructor
      · intro h
        rcases List.mem_filter.mp h with ⟨hmem, hpred⟩
        exact ⟨hmem, of_decide_eq_true hpred⟩
      · rintro ⟨hmem, hpred⟩
        exact List.mem_filter.mpr ⟨hmem, decide_eq_true hpred⟩
    · intro u v
      constructor
      · intro h
        rcases List.mem_filter.mp h with ⟨hmem, hpred⟩
        refine ⟨hmem, fun t ht hrange => of_decide_eq_true hpred ?_⟩
        exact (hmemrange u).mpr ⟨t, ht, hrange⟩
      · rintro ⟨hmem, hall⟩
        refine List.mem_filter.mpr ⟨hmem, decide_eq_true ?_⟩
        intro hu
        rcases (hmemrange u).mp hu with ⟨t, ht, hrange⟩
        exact hall t ht hrange

theorem cleanup_outdated_amended_witness :
    ¬ (("a", (50 : ℚ)) ∈
      (cleanup_outdated_redis (⟨[("a", 50)], [("a", "p")]⟩ : Queue String)
        100 10).keysSet) := by
  intro h
  have hiff := (cleanup_outdated_amended
    (⟨[("a", 50)], [("a", "p")]⟩ : Queue String) 100 10).1 "a" 50
  have := (hiff.mp h).2
  apply this
  constructor <;> norm_num

unseal Rat.inv Rat.mul Rat.add Rat.sub in
/-- C6: on the queue holding `("b", 5)` and `("a", 3)`, CollectKeys with
amount = 0 returns both entries oldest-first in the Redis engine but *no*
entries in the SQLite engine (`LIMIT 0`), contradicting the claim that the
two engines behave identically; the SQLite engine's own docstring says
"0 means all of them".  With amount = 1 both return the oldest entry. -/
theorem collect_keys_divergence :
    collect_keys_redis (⟨[("b", 5), ("a", 3)], []⟩ : Queue String) 0 =
      [("a", 3), ("b", 5)] ∧
    collect_keys_sqlite (⟨[("b", 5), ("a", 3)], []⟩ : Queue String) 0 = [] ∧
    collect_keys_redis (⟨[("b", 5), ("a", 3)], []⟩ : Queue String) 1 =
      [("a", 3)] ∧
    collect_keys_sqlite (⟨[("b", 5), ("a", 3)], []⟩ : Queue String) 1 =
      [("a", 3)] := by
  refine ⟨?_, ?_, ?_, ?_⟩ <;> decide

/-!
### The aggregator (`chouette_iot/metrics/_aggregator.py`)
-/

/-- The two queues `MetricsAggregator._process_metrics` touches. -/
structure MetricsStorage where
  raw : Queue RawPayload
  wrapped : Queue WrappedMetric
  deriving DecidableEq, Repr

/-- `MetricsAggregator._process_metrics` for one bucket of raw keys:
collect the raw payloads, merge them, wrap them with the configured
wrapper, store the wrapped metrics to the wrapped queue and — only when
that store reported success — delete the bucket's raw keys.  A store
failure leaves the raw queue untouched and reports failure; a merge
exception propagates out of the actor without storing or deleting
anything. -/
def process_metrics (wrapper : List MergedMetric → List WrappedMetric)
    (st : MetricsStorage) (keys : List String) (interval : ℕ)
    (storeFails : Bool) (uidBase : ℕ) : Bool × MetricsStorage :=
  let b_records := collect_values st.raw keys
  match merge_metrics b_records interval with
  | .error _ => (false, st)
  | .ok merged_metrics =>
    let wrapped_metrics := wrapper merged_metrics
    let s := store_records st.wrapped
      (wrapped_metrics.map (fun w => (w.timestamp, w))) storeFails uidBase
    if s.1 then
      let d := delete_records st.raw keys
      (s.1 && d.1, { raw := d.2, wrapped := s.2 })
    else
      (false, { raw := st.raw, wrapped := s.2 })

theorem store_records_fail_eq {α : Type} (q : Queue α)
    (records : List (ℚ × α)) (storeFails : Bool) (uidBase : ℕ)
    (h : (store_records q records storeFails uidBase).1 = false) :
    (store_records q records storeFails uidBase).2 = q := by
  unfold store_records at h ⊢
  by_cases h1 : records.isEmpty
  · rw [if_pos h1] at h
    simp at h
  · rw [if_neg h1] at h ⊢
    by_cases h2 : storeFails
    · rw [if_pos h2]
    · rw [if_neg h2] at h
      simp at h

/-- C1: For every aggregator bucket, a raw key is deleted only if the
StoreRecords call that stores the corresponding wrapped metrics returned
success; when that store returns false, the bucket is reported as a
failure and none of its raw keys are deleted — the whole storage state is
left unchanged by that bucket's processing. -/
theorem process_metrics_durability :
    (∀ (wrapper : List MergedMetric → List WrappedMetric)
        (st : MetricsStorage) (keys : List String) (interval : ℕ)
        (storeFails : Bool) (uidBase : ℕ) (merged : List MergedMetric),
      merge_metrics (collect_values st.raw keys) interval = .ok merged →
      (store_records st.wrapped
        ((wrapper merged).map (fun w => (w.timestamp, w)))
        storeFails uidBase).1 = false →
      process_metrics wrapper st keys interval storeFails uidBase =
        (false, st)) ∧
    (∀ (wrapper : List MergedMetric → List WrappedMetric)
        (st : MetricsStorage) (keys : List String) (interval : ℕ)
        (storeFails : Bool) (uidBase : ℕ),
      (process_metrics wrapper st keys interval storeFails uidBase).2.raw ≠
        st.raw →
      ∃ merged,
        merge_metrics (collect_values st.raw keys) interval = .ok merged ∧
        (store_records st.wrapped
          ((wrapper merged).map (fun w => (w.timestamp, w)))
          storeFails uidBase).1 = true) := by
  constructor
  · intro wrapper st keys interval storeFails uidBase merged hmerge hfail
    unfold process_metrics
    dsimp only
    rw [hmerge]
    dsimp only
    rw [hfail]
    simp only [Bool.false_eq_true, if_false]
    rw [store_records_fail_eq _ _ _ _ hfail]
  · intro wrapper st keys interval storeFails uidBase hne
    rcases hmerge : merge_metrics (collect_values st.raw keys) interval with
      e | merged
    · exfalso
      apply hne
      unfold process_metrics
      dsimp only
      rw [hmerge]
    · refine ⟨merged, rfl, ?_⟩
      by_cases hs : (store_records st.wrapped
          ((wrapper merged).map (fun w => (w.timestamp, w)))
          storeFails uidBase).1 = true
      · exact hs
      · exfalso
        apply hne
        unfold process_metrics
        dsimp only
        rw [hmerge]
        dsimp only
        simp only [Bool.not_eq_true] at hs
        rw [hs]
        simp only [Bool.false_eq_true, if_false]

theorem process_metrics_durability_witness :
    process_metrics (fun _ => [mkWrappedMetric "w" "count" 1 1 [] none])
        ⟨⟨[], []⟩, ⟨[], []⟩⟩ [] 10 true 0 = (false, ⟨⟨[], []⟩, ⟨[], []⟩⟩) :=
  process_metrics_durability.1 (fun _ => [mkWrappedMetric "w" "count" 1 1 [] none])
    ⟨⟨[], []⟩, ⟨[], []⟩⟩ [] 10 true 0 [] rfl rfl

/-!
### The senders (`chouette_iot/_sender.py`, `chouette_iot/metrics/_sender.py`)
-/

/-- The outcome of the `requests.post` call: an HTTP response with a
status code, or a requests-level error (`RequestException` / `IOError`). -/
inductive HttpResult
  | status (code : ℕ)
  | requestError
  deriving DecidableEq, Repr

/-- `Sender._post_to_datadog` (the abstract class used by `LogsSender`):
`if dd_response.status_code not in [200, 202]: return False`, any
`RequestException`/`IOError` returns False, otherwise True. -/
def post_to_datadog_sender : HttpResult → Bool
  | .status code => if code ∈ ([200, 202] : List ℕ) then true else false
  | .requestError => false

/-- `MetricsSender._post_to_datadog`:
`if not dd_response.status_code == 202: return False`, any
`RequestException`/`IOError` returns False, otherwise True. -/
def post_to_datadog_metrics_sender : HttpResult → Bool
  | .status code => if code = 202 then true else false
  | .requestError => false

/-- The dispatch-then-delete tail of `Sender.process_records`: records are
deleted only after a successful dispatch; on failure the wrapped queue is
untouched and the tick reports failure. -/
def sender_dispatch {α : Type} (q : Queue α) (keys : List String)
    (r : HttpResult) : Bool × Queue α :=
  if post_to_datadog_sender r then delete_records q keys else (false, q)

/-- The dispatch-then-delete tail of `MetricsSender.on_receive`. -/
def metrics_sender_dispatch {α : Type} (q : Queue α) (keys : List String)
    (r : HttpResult) : Bool × Queue α :=
  if post_to_datadog_metrics_sender r then delete_records q keys
  else (false, q)

/-- C2 counterexample: a 200 OK response makes `MetricsSender` report a
*failed* dispatch and keep its records — `MetricsSender._post_to_datadog`
accepts only 202, so "success if and only if the status code is in
{200, 202}" does not hold for the metrics sender. -/
theorem sender_status_counterexample :
    post_to_datadog_metrics_sender (.status 200) = false ∧
    metrics_sender_dispatch (⟨[("k", 1)], [("k", "m")]⟩ : Queue String)
        ["k"] (.status 200) =
      (false, ⟨[("k", 1)], [("k", "m")]⟩) := by
  constructor <;> rfl

/-- C2 (amended): the abstract `Sender` (used for logs) treats exactly the
statuses {200, 202} as success, while `MetricsSender` treats exactly 202
as success; requests-level I/O errors are failures for both, and a failed
dispatch leaves the dispatched records undeleted in both. -/
theorem sender_status_amended :
    (∀ r, post_to_datadog_sender r = true ↔
      (r = .status 200 ∨ r = .status 202)) ∧
    (∀ r, post_to_datadog_metrics_sender r = true ↔ r = .status 202) ∧
    (∀ (q : Queue String) keys r, post_to_datadog_sender r = false →
      sender_dispatch q keys r = (false, q)) ∧
    (∀ (q : Queue String) keys r,
      post_to_datadog_metrics_sender r = false →
      metrics_sender_dispatch q keys r = (false, q)) := by
  refine ⟨?_, ?_, ?_, ?_⟩
  · intro r
    cases r with
    | status code =>
      simp only [post_to_datadog_sender]
      by_cases hc : code ∈ ([200, 202] : List ℕ)
      · rw [if_pos hc]
        constructor
        · intro _
          rcases List.mem_cons.mp hc with h1 | h1
          · exact Or.inl (by rw [h1])
          · have h2 := List.mem_singleton.mp h1
            exact Or.inr (by rw [h2])
        · intro _
          rfl
      · rw [if_neg hc]
        constructor
        · intro h
          simp at h
        · rintro (h | h)
          · injection h with h2
            subst h2
            exact absurd (by simp) hc
          · injection h with h2
            subst h2
            exact absurd (by simp) hc
    | requestError =>
      simp [post_to_datadog_sender]
  · intro r
    cases r with
    | status code =>
      simp only [post_to_datadog_metrics_sender]
      by_cases hc : code = 202
      · subst hc
        simp
      · rw [if_neg hc]
        constructor
        · intro h
          simp at h
        · intro h
          injection h with h2
          exact absurd h2 hc
    | requestError =>
      simp [post_to_datadog_metrics_sender]
  · intro q keys r h
    simp only [sender_dispatch, h, Bool.false_eq_true, if_false]
  · intro q keys r h
    simp only [metrics_sender_dispatch, h, Bool.false_eq_true, if_false]

theorem sender_status_amended_witness :
    post_to_datadog_sender (.status 500) = false ∧
    sender_dispatch (⟨[("k", 1)], [("k", "m")]⟩ : Queue String) ["k"]
        (.status 500) =
      (false, ⟨[("k", 1)], [("k", "m")]⟩) :=
  ⟨rfl, sender_status_amended.2.2.1 ⟨[("k", 1)], [("k", "m")]⟩ ["k"]
    (.status 500) rfl⟩

/-!
### The scheduler handle (`chouette/_scheduler.py`)

`Cancellable` holds a `_cancelled` flag and a timer handle; `cancel()` and
`set_timer()` both take the internal mutex, so a run is a sequence of
atomic operations on the state.  Timer handles are abstracted to numbers.
-/

/-- The `Cancellable` state: the `_cancelled` flag and the `_timer`
handle (`None` or a `Timer`). -/
structure Cancellable where
  cancelled : Bool
  timer : Option ℕ
  deriving DecidableEq, Repr

/-- `Cancellable.set_timer`: under the lock, refuses to update the timer
of a cancelled Cancellable, otherwise stores the new handle. -/
def Cancellable.set_timer (c : Cancellable) (t : ℕ) : Bool × Cancellable :=
  if c.cancelled then (false, c)
  else (true, { c with timer := some t })

/-- `Cancellable.cancel`: under the lock, stops the timer object (which
does not change the stored handle), returns False when already cancelled,
and otherwise sets the flag and returns True. -/
def Cancellable.cancel (c : Cancellable) : Bool × Cancellable :=
  if c.cancelled then (false, c)
  else (true, { c with cancelled := true })

/-- One call in a sequence of operations on a Cancellable. -/
inductive SchedOp
  | cancel
  | set_timer (t : ℕ)
  deriving DecidableEq, Repr

/-- Runs a sequence of `cancel()` / `set_timer()` calls, returning the
list of boolean results and the final state. -/
def runOps (c : Cancellable) : List SchedOp → List Bool × Cancellable
  | [] => ([], c)
  | op :: ops =>
    let step := match op with
      | SchedOp.cancel => c.cancel
      | SchedOp.set_timer t => c.set_timer t
    let rest := runOps step.2 ops
    (step.1 :: rest.1, rest.2)

/-- The number of `cancel()` calls in a run that returned True. -/
def trueCancelCount (c : Cancellable) (ops : List SchedOp) : ℕ :=
  ((ops.zip (runOps c ops).1).filter
    (fun p => p.1 = SchedOp.cancel ∧ p.2 = true)).length

theorem runOps_cancelled_absorbing :
    ∀ (ops : List SchedOp) (c : Cancellable), c.cancelled = true →
      runOps c ops = (ops.map (fun _ => false), c) := by
  intro ops
  induction ops with
  | nil => intro c _; rfl
  | cons op ops ih =>
    intro c hc
    cases op with
    | cancel =>
      simp only [runOps, Cancellable.cancel, hc, if_true, ih c hc,
        List.map_cons]
    | set_timer t =>
      simp only [runOps, Cancellable.set_timer, hc, if_true, ih c hc,
        List.map_cons]

/-- C7: starting from a fresh (uncancelled) Cancellable, `cancel()`
returns True on exactly one call when any cancel occurs (and on none
otherwise), and False on every later call; and once cancelled, every
further operation returns False and leaves the state — in particular the
timer handle — unchanged, so a cancelled Cancellable can never be
rearmed. -/
theorem cancellable_cancel_once :
    (∀ (ops : List SchedOp) (c : Cancellable), c.cancelled = false →
      trueCancelCount c ops =
        if SchedOp.cancel ∈ ops then 1 else 0) ∧
    (∀ (ops : List SchedOp) (c : Cancellable), c.cancelled = true →
      runOps c ops = (ops.map (fun _ => false), c)) := by
  constructor
  · intro ops
    induction ops with
    | nil =>
      intro c _
      simp [trueCancelCount, runOps]
    | cons op ops ih =>
      intro c hc
      cases op with
      | cancel =>
        have hstate : (c.cancel).2.cancelled = true := by
          simp [Cancellable.cancel, hc]
        have habs := runOps_cancelled_absorbing ops (c.cancel).2 hstate
        simp only [Cancellable.cancel, hc, Bool.false_eq_true, if_false]
          at habs
        have hnil : (ops.zip (List.replicate ops.length false)).filter
            (fun p => decide (p.1 = SchedOp.cancel ∧ p.2 = true)) = [] := by
          apply List.filter_eq_nil_iff.mpr
          intro p hp
          rcases List.of_mem_zip hp with ⟨hp1, hp2⟩
          have hfalse := List.eq_of_mem_replicate hp2
          simp [hfalse]
        simp [trueCancelCount, runOps, Cancellable.cancel, hc, habs, hnil]
        intro a ha
        exact fun _ =>
          absurd (List.eq_of_mem_replicate (List.of_mem_zip ha).2) (by simp)
      | set_timer t =>
        have hstate : (c.set_timer t).2.cancelled = false := by
          simp [Cancellable.set_timer, hc]
        have hrec := ih (c.set_timer t).2 hstate
        simp only [trueCancelCount, runOps, Cancellable.set_timer, hc,
          Bool.false_eq_true, if_false] at hrec ⊢
        simp only [List.zip_cons_cons, List.filter_cons]
        simpa [List.mem_cons] using hrec
  · exact fun ops c hc => runOps_cancelled_absorbing ops c hc

theorem cancellable_cancel_once_witness :
    (⟨false, none⟩ : Cancellable).cancelled = false ∧
    trueCancelCount ⟨false, none⟩
        [SchedOp.set_timer 1, SchedOp.cancel, SchedOp.cancel,
         SchedOp.set_timer 2] = 1 :=
  ⟨rfl, by
    rw [cancellable_cancel_once.1
      [SchedOp.set_timer 1, SchedOp.cancel, SchedOp.cancel,
       SchedOp.set_timer 2] ⟨false, none⟩ rfl]
    decide⟩

end Chouette
